import Mathlib

/-!
# Verification of the bounded priority event queue

Shallow embedding of the FreeRTOS priority-queue module of this repository
(the max-heap variant with the availability semaphore starting at 0, the
policy the specification adopts; file `src/unnamed/part_001`, whose public
surface is declared in `app/inc/priority_queue.h`).

Modelling conventions:
* The occupied prefix `events[0 .. size)` of the backing C array is modelled
  as a `List pq_event_t` whose length is `size`; cells at and beyond `size`
  are never read by the code (proved below as the bounds-check theorems).
* Enum values are compared through their numeric value, as C does.
* Semaphore/mutex interaction is modelled for single-threaded (serialized)
  executions: the mutex acquisition outcome is an explicit boolean input
  (`true` = acquired within the timeout), and the counting semaphore is an
  explicit `semCount` field; a take with timeout succeeds exactly when the
  count is positive, a give increments it up to the cap `PQ_MAX_EVENT_SIZE`
  used at creation.
-/

/-- `pq_priority_t` from priority_queue.h: LOW < MEDIUM < HIGH (enum values 0,1,2). -/
inductive pq_priority_t where
  | LOW_PRIORITY
  | MEDIUM_PRIORITY
  | HIGH_PRIORITY
deriving DecidableEq, Repr, Inhabited

/-- Numeric value of the C enum constant. -/
def pq_priority_t.toNat : pq_priority_t → Nat
  | .LOW_PRIORITY => 0
  | .MEDIUM_PRIORITY => 1
  | .HIGH_PRIORITY => 2

/-- `pq_event_t` from priority_queue.h: an event carrying its priority. -/
structure pq_event_t where
  priority : pq_priority_t
deriving DecidableEq, Repr, Inhabited

/-- FreeRTOS `BaseType_t` restricted to the two values the module returns. -/
inductive BaseType_t where
  | pdPASS
  | pdFAIL
deriving DecidableEq, Repr

export BaseType_t (pdPASS pdFAIL)

/-- `PQ_MAX_EVENT_SIZE` from priority_queue.h. -/
def PQ_MAX_EVENT_SIZE : Nat := 10

/-- Numeric priority stored at index `i` of the occupied prefix
(out-of-range reads yield the default, used only where proved unreachable). -/
def getP (l : List pq_event_t) (i : Nat) : Nat :=
  (l.getD i default).priority.toNat

/-- `_swap(&l[i], &l[j])` from priority_queue.c. -/
def swapL (l : List pq_event_t) (i j : Nat) : List pq_event_t :=
  (l.set i (l.getD j default)).set j (l.getD i default)

theorem swapL_length (l : List pq_event_t) (i j : Nat) :
    (swapL l i j).length = l.length := by
  simp [swapL]

theorem getD_set_self : ∀ (l : List pq_event_t) (i : Nat) (a d : pq_event_t),
    i < l.length → (l.set i a).getD i d = a
  | [], i, a, d, h => by simp at h
  | x :: xs, 0, a, d, _ => rfl
  | x :: xs, i + 1, a, d, h => by
      have := getD_set_self xs i a d (by simpa using h)
      simpa [List.set, List.getD] using this

theorem getD_set_ne : ∀ (l : List pq_event_t) (i j : Nat) (a d : pq_event_t),
    i ≠ j → (l.set i a).getD j d = l.getD j d
  | [], _, _, _, _, _ => rfl
  | x :: xs, 0, 0, a, d, h => absurd rfl h
  | x :: xs, 0, j + 1, a, d, _ => rfl
  | x :: xs, i + 1, 0, a, d, _ => rfl
  | x :: xs, i + 1, j + 1, a, d, h => by
      have := getD_set_ne xs i j a d (by omega)
      simpa [List.set, List.getD] using this

theorem getP_swapL_fst (l : List pq_event_t) (i j : Nat) (hi : i < l.length)
    (hne : i ≠ j) : getP (swapL l i j) i = getP l j := by
  unfold getP swapL
  rw [getD_set_ne _ _ _ _ _ (fun h => hne h.symm), getD_set_self _ _ _ _ hi]

theorem getP_swapL_snd (l : List pq_event_t) (i j : Nat)
    (hj : j < l.length) : getP (swapL l i j) j = getP l i := by
  unfold getP swapL
  rw [getD_set_self _ _ _ _ (by simpa using hj)]

theorem getP_swapL_other (l : List pq_event_t) (i j t : Nat)
    (hti : t ≠ i) (htj : t ≠ j) : getP (swapL l i j) t = getP l t := by
  unfold getP swapL
  rw [getD_set_ne _ _ _ _ _ (fun h => htj h.symm),
      getD_set_ne _ _ _ _ _ (fun h => hti h.symm)]

theorem getP_out_of_range (l : List pq_event_t) (i : Nat) (h : l.length ≤ i) :
    getP l i = 0 := by
  unfold getP
  rw [List.getD_eq_default _ _ h]
  rfl

theorem lt_length_of_getP_pos (l : List pq_event_t) (i : Nat)
    (h : 0 < getP l i) : i < l.length := by
  by_contra hc
  rw [getP_out_of_range l i (by omega)] at h
  exact absurd h (lt_irrefl 0)

/-- `_heapifyUp` from part_001 (lines 64-72): while the element at `index`
has strictly higher priority than its parent `(index-1)/2`, swap them and
continue from the parent.  In C the guard `parentIndex >= 0` is always true
(`(0-1)/2` truncates toward zero, so at the root the parent is `0` and the
strict self-comparison is false), which `Nat` arithmetic mirrors exactly. -/
def heapifyUp (l : List pq_event_t) (index : Nat) : List pq_event_t :=
  if h : getP l ((index - 1) / 2) < getP l index then
    heapifyUp (swapL l index ((index - 1) / 2)) ((index - 1) / 2)
  else
    l
termination_by index
decreasing_by
  rcases Nat.eq_zero_or_pos index with h0 | h0
  · subst h0
    simp at h
  · omega

/-- Index selected by the first comparison of `_heapifyDown`
(part_001 lines 80-83): the left child if it is in range and strictly
greater, else `index` itself. -/
def largestIdx1 (l : List pq_event_t) (index : Nat) : Nat :=
  if 2 * index + 1 < l.length ∧ getP l index < getP l (2 * index + 1) then
    2 * index + 1
  else
    index

/-- Index `largest` after both child comparisons of `_heapifyDown`
(part_001 lines 80-88). -/
def largestIdx (l : List pq_event_t) (index : Nat) : Nat :=
  if 2 * index + 2 < l.length ∧
      getP l (largestIdx1 l index) < getP l (2 * index + 2) then
    2 * index + 2
  else
    largestIdx1 l index

theorem largestIdx1_cases (l : List pq_event_t) (i : Nat) :
    largestIdx1 l i = i ∨
      (largestIdx1 l i = 2 * i + 1 ∧ 2 * i + 1 < l.length ∧
        getP l i < getP l (2 * i + 1)) := by
  unfold largestIdx1
  split
  · next h => exact Or.inr ⟨rfl, h.1, h.2⟩
  · exact Or.inl rfl

theorem largestIdx_cases (l : List pq_event_t) (i : Nat) :
    largestIdx l i = i ∨
      (i < largestIdx l i ∧ largestIdx l i < l.length ∧
        (largestIdx l i = 2 * i + 1 ∨ largestIdx l i = 2 * i + 2) ∧
        getP l i < getP l (largestIdx l i)) := by
  unfold largestIdx
  rcases largestIdx1_cases l i with h1 | h1
  · split
    · next h => exact Or.inr ⟨by omega, h.1, Or.inr rfl, by rw [h1] at h; exact h.2⟩
    · rw [h1]; exact Or.inl rfl
  · split
    · next h =>
        refine Or.inr ⟨by omega, h.1, Or.inr rfl, ?_⟩
        rw [h1.1] at h
        exact lt_trans h1.2.2 h.2
    · rw [h1.1]
      exact Or.inr ⟨by omega, h1.2.1, Or.inl rfl, h1.2.2⟩

theorem largestIdx1_ge_self (l : List pq_event_t) (i : Nat) :
    getP l i ≤ getP l (largestIdx1 l i) := by
  unfold largestIdx1
  split
  · next h => exact le_of_lt h.2
  · exact le_refl _

theorem largestIdx1_ge_left (l : List pq_event_t) (i : Nat)
    (h : 2 * i + 1 < l.length) :
    getP l (2 * i + 1) ≤ getP l (largestIdx1 l i) := by
  unfold largestIdx1
  split
  · exact le_refl _
  · next hn =>
      push_neg at hn
      exact hn h

theorem largestIdx_ge_mid (l : List pq_event_t) (i : Nat) :
    getP l (largestIdx1 l i) ≤ getP l (largestIdx l i) := by
  unfold largestIdx
  split
  · next h => exact le_of_lt h.2
  · exact le_refl _

theorem largestIdx_ge_right (l : List pq_event_t) (i : Nat)
    (h : 2 * i + 2 < l.length) :
    getP l (2 * i + 2) ≤ getP l (largestIdx l i) := by
  unfold largestIdx
  split
  · exact le_refl _
  · next hn =>
      push_neg at hn
      exact hn h

/-- Children of `index` never exceed the chosen `largest` index. -/
theorem largestIdx_dominates (l : List pq_event_t) (i : Nat) :
    ∀ j, j < l.length → (j = 2 * i + 1 ∨ j = 2 * i + 2) →
      getP l j ≤ getP l (largestIdx l i) := by
  intro j hj hchild
  rcases hchild with hc | hc
  · subst hc
    exact le_trans (largestIdx1_ge_left l i hj) (largestIdx_ge_mid l i)
  · subst hc
    exact largestIdx_ge_right l i hj

theorem largestIdx_ge_self (l : List pq_event_t) (i : Nat) :
    getP l i ≤ getP l (largestIdx l i) := by
  exact le_trans (largestIdx1_ge_self l i) (largestIdx_ge_mid l i)

/-- `_heapifyDown` from part_001 (lines 74-95): pick the larger in-range
child; if it beats `index`, swap and continue from there. -/
def heapifyDown (l : List pq_event_t) (index : Nat) : List pq_event_t :=
  if h : largestIdx l index ≠ index then
    heapifyDown (swapL l index (largestIdx l index)) (largestIdx l index)
  else
    l
termination_by l.length - index
decreasing_by
  rcases largestIdx_cases l index with h1 | h1
  · exact absurd h1 h
  · simp only [swapL_length]
    omega

theorem heapifyUp_length (l : List pq_event_t) (index : Nat) :
    (heapifyUp l index).length = l.length := by
  unfold heapifyUp
  split
  · rw [heapifyUp_length, swapL_length]
  · rfl
termination_by index
decreasing_by
  rcases Nat.eq_zero_or_pos index with h0 | h0
  · subst h0
    next h => simp at h
  · omega

theorem heapifyDown_length (l : List pq_event_t) (index : Nat) :
    (heapifyDown l index).length = l.length := by
  unfold heapifyDown
  split
  · next h =>
      rw [heapifyDown_length, swapL_length]
  · rfl
termination_by l.length - index
decreasing_by
  rcases largestIdx_cases l index with h1 | h1
  · next hne => exact absurd h1 hne
  · simp only [swapL_length]
    omega

/-- `pq_handle_t` restricted to the shared mutable data the operations read
and write: the occupied prefix of `events` (its length is `size`) and the
current count of the availability semaphore `eventSemaphore`. -/
structure pq_handle_t where
  events : List pq_event_t
  semCount : Nat
deriving DecidableEq, Repr

/-- Ledger of the construction path of `xPriorityQueueCreate`: which
resources were obtained and which were released before returning. -/
structure pq_create_result_t where
  handle : Option pq_handle_t
  pqAllocated : Bool
  pqFreed : Bool
  mutexCreated : Bool
  mutexDeleted : Bool
  semCreated : Bool
deriving DecidableEq, Repr

/-- `xPriorityQueueCreate` from part_001 (lines 99-125).  The three booleans
say whether `pvPortMalloc`, `xSemaphoreCreateMutex` and
`xSemaphoreCreateCounting(PQ_MAX_EVENT_SIZE, 0)` succeed.  On the two
primitive-failure paths the source calls `vPortFree(pq)` and returns NULL;
no path calls `vSemaphoreDelete`, so `mutexDeleted` is `false` everywhere. -/
def xPriorityQueueCreate (allocOk mutexOk semOk : Bool) : pq_create_result_t :=
  if ¬ allocOk then
    { handle := none, pqAllocated := false, pqFreed := false,
      mutexCreated := false, mutexDeleted := false, semCreated := false }
  else if ¬ mutexOk then
    { handle := none, pqAllocated := true, pqFreed := true,
      mutexCreated := false, mutexDeleted := false, semCreated := false }
  else if ¬ semOk then
    { handle := none, pqAllocated := true, pqFreed := true,
      mutexCreated := true, mutexDeleted := false, semCreated := false }
  else
    { handle := some { events := [], semCount := 0 },
      pqAllocated := true, pqFreed := false,
      mutexCreated := true, mutexDeleted := false, semCreated := true }

/-- `xPriorityQueueSend` from part_001 (lines 127-149).  `mutexOk` is the
outcome of `xSemaphoreTake(pq->mutex, ticksToWait)`.  On success the event
is placed at index `size`, `size` is incremented, `_heapifyUp(pq, size-1)`
runs, and the availability semaphore is given (capped at its creation
maximum `PQ_MAX_EVENT_SIZE`). -/
def xPriorityQueueSend (mutexOk : Bool) (pq : pq_handle_t)
    (event : pq_event_t) : BaseType_t × pq_handle_t :=
  if mutexOk then
    if PQ_MAX_EVENT_SIZE ≤ pq.events.length then
      (pdFAIL, pq)
    else
      (pdPASS,
        { events := heapifyUp (pq.events ++ [event]) (pq.events.length + 1 - 1),
          semCount := min (pq.semCount + 1) PQ_MAX_EVENT_SIZE })
  else
    (pdFAIL, pq)

/-- `xPriorityQueueReceive` from part_001 (lines 151-171).  A serialized
take of `eventSemaphore` with a timeout succeeds exactly when the count is
positive (consuming one token); `mutexOk` is the outcome of the inner
`xSemaphoreTake(pq->mutex, 10)`.  When `0 < size` the root is copied out,
the last element is moved to index 0, `size` is decremented and
`_heapifyDown(pq, 0)` runs; the function then returns `pdPASS` whether or
not an event was copied out. -/
def xPriorityQueueReceive (mutexOk : Bool) (pq : pq_handle_t) :
    BaseType_t × pq_handle_t × Option pq_event_t :=
  if 0 < pq.semCount then
    if mutexOk then
      if 0 < pq.events.length then
        (pdPASS,
          { events :=
              heapifyDown
                ((pq.events.set 0
                    (pq.events.getD (pq.events.length - 1) default)).dropLast) 0,
            semCount := pq.semCount - 1 },
          some (pq.events.getD 0 default))
      else
        (pdPASS, { events := pq.events, semCount := pq.semCount - 1 }, none)
    else
      (pdFAIL, { events := pq.events, semCount := pq.semCount - 1 }, none)
  else
    (pdFAIL, pq, none)

/-- C3: create() returns a queue whose size is 0 and whose counting
availability primitive has a start count of 0, so a receive issued
immediately after creation finds no event available and fails. -/
theorem C3_create_empty_sem_zero :
    (xPriorityQueueCreate true true true).handle =
      some { events := [], semCount := 0 } ∧
    xPriorityQueueReceive true { events := [], semCount := 0 } =
      (pdFAIL, { events := [], semCount := 0 }, none) := by
  exact ⟨rfl, rfl⟩

/-- C4: sending into a queue whose size equals the fixed capacity
`PQ_MAX_EVENT_SIZE = 10` returns the failure result and leaves the queue
state (events and availability count) completely unchanged. -/
theorem C4_send_full_fails_unchanged (mutexOk : Bool) (pq : pq_handle_t)
    (event : pq_event_t) (h : pq.events.length = PQ_MAX_EVENT_SIZE) :
    xPriorityQueueSend mutexOk pq event = (pdFAIL, pq) := by
  cases mutexOk <;> simp [xPriorityQueueSend, h]

theorem C4_send_full_fails_unchanged_witness :
    xPriorityQueueSend true
        { events := List.replicate 10 { priority := .HIGH_PRIORITY },
          semCount := 10 }
        { priority := .LOW_PRIORITY } =
      (pdFAIL,
        { events := List.replicate 10 { priority := .HIGH_PRIORITY },
          semCount := 10 }) :=
  C4_send_full_fails_unchanged true _ _ (by decide)

/-- C5: the code does NOT fail gracefully in the defensive empty branch of
receive: when the availability take succeeds (one token present) but the
queue holds no event, the source releases the mutex and returns `pdPASS`
with the output event unwritten and the array untouched, contradicting both
the claim and the header contract (`pdPASS` only if an event was received). -/
theorem C5_receive_empty_returns_pdPASS :
    xPriorityQueueReceive true { events := [], semCount := 1 } =
      (pdPASS, { events := [], semCount := 0 }, none) := by
  exact rfl

/-- C6 counterexample: a send that fails because the queue is full returns
exactly the same observable value (`pdFAIL`) as a send that fails because
the mutex take timed out, at these concrete inputs. -/
theorem C6_counterexample_same_result :
    (xPriorityQueueSend true
        { events := List.replicate 10 { priority := .LOW_PRIORITY },
          semCount := 10 }
        { priority := .HIGH_PRIORITY }).1 =
    (xPriorityQueueSend false { events := [], semCount := 0 }
        { priority := .HIGH_PRIORITY }).1 := by
  decide

/-- C6 amended: both failure modes of send return the single value
`pdFAIL`; the public return value does not distinguish a timeout from a
full queue. -/
theorem C6_amended_both_failures_pdFAIL (pq : pq_handle_t)
    (event : pq_event_t) :
    (xPriorityQueueSend false pq event).1 = pdFAIL ∧
    (PQ_MAX_EVENT_SIZE ≤ pq.events.length →
      (xPriorityQueueSend true pq event).1 = pdFAIL) := by
  refine ⟨rfl, fun h => ?_⟩
  simp [xPriorityQueueSend, h]

theorem C6_amended_both_failures_pdFAIL_witness :
    (xPriorityQueueSend true
        { events := List.replicate 10 { priority := .LOW_PRIORITY },
          semCount := 10 }
        { priority := .HIGH_PRIORITY }).1 = pdFAIL :=
  (C6_amended_both_failures_pdFAIL _ _).2 (by decide)

/-- C8 counterexample: on the path where the counting semaphore fails to
initialize, create returns null and has created the mutex, yet the mutex is
not deleted — the claim "every piece of partial state is deallocated, in
particular the mutex is released" is false at this concrete input. -/
theorem C8_counterexample_mutex_leak :
    ¬ ((xPriorityQueueCreate true true false).handle = none →
        (xPriorityQueueCreate true true false).mutexCreated = true →
        (xPriorityQueueCreate true true false).mutexDeleted = true) := by
  decide

/-- C8 amended: create returns null exactly when allocation or a primitive
fails; on every failure path the queue allocation itself is freed, but no
path ever deletes the created mutex, so the mutex object leaks when the
counting semaphore fails after the mutex was created. -/
theorem C8_amended_partial_cleanup (allocOk mutexOk semOk : Bool) :
    ((xPriorityQueueCreate allocOk mutexOk semOk).handle = none ↔
      ¬ (allocOk = true ∧ mutexOk = true ∧ semOk = true)) ∧
    ((xPriorityQueueCreate allocOk mutexOk semOk).handle = none →
      (xPriorityQueueCreate allocOk mutexOk semOk).pqAllocated = true →
      (xPriorityQueueCreate allocOk mutexOk semOk).pqFreed = true) ∧
    (xPriorityQueueCreate allocOk mutexOk semOk).mutexDeleted = false := by
  cases allocOk <;> cases mutexOk <;> cases semOk <;> decide

theorem C8_amended_partial_cleanup_witness :
    (xPriorityQueueCreate true true false).handle = none ∧
    (xPriorityQueueCreate true true false).pqFreed = true ∧
    (xPriorityQueueCreate true true false).mutexDeleted = false :=
  ⟨(C8_amended_partial_cleanup true true false).1.mpr (by decide),
   (C8_amended_partial_cleanup true true false).2.1
     ((C8_amended_partial_cleanup true true false).1.mpr (by decide))
     (by decide),
   (C8_amended_partial_cleanup true true false).2.2⟩

/-- One serialized call against the queue: a send of a given event or a
receive, each granted the mutex within its timeout (in a serialized run the
mutex is always free when requested). -/
inductive pq_op_t where
  | send (event : pq_event_t)
  | recv
deriving DecidableEq, Repr

/-- Run a sequence of serialized calls from `pq`: final state, number of
sends that returned `pdPASS`, number of receives that returned `pdPASS`. -/
def runOps (pq : pq_handle_t) : List pq_op_t → pq_handle_t × Nat × Nat
  | [] => (pq, 0, 0)
  | pq_op_t.send e :: ops =>
      let r := xPriorityQueueSend true pq e
      let rest := runOps r.2 ops
      (rest.1, (if r.1 = pdPASS then 1 else 0) + rest.2.1, rest.2.2)
  | pq_op_t.recv :: ops =>
      let r := xPriorityQueueReceive true pq
      let rest := runOps r.2.1 ops
      (rest.1, rest.2.1, (if r.1 = pdPASS then 1 else 0) + rest.2.2)

/-- Sequential-state invariant: the availability count equals the number of
stored events, which never exceeds the capacity. -/
def CountInv (pq : pq_handle_t) : Prop :=
  pq.semCount = pq.events.length ∧ pq.events.length ≤ PQ_MAX_EVENT_SIZE

theorem send_full_eq (pq : pq_handle_t) (e : pq_event_t)
    (hfull : PQ_MAX_EVENT_SIZE ≤ pq.events.length) :
    xPriorityQueueSend true pq e = (pdFAIL, pq) := by
  unfold xPriorityQueueSend
  rw [if_pos rfl, if_pos hfull]

theorem send_ok_eq (pq : pq_handle_t) (e : pq_event_t)
    (hfull : ¬ PQ_MAX_EVENT_SIZE ≤ pq.events.length) :
    xPriorityQueueSend true pq e =
      (pdPASS,
        { events := heapifyUp (pq.events ++ [e]) (pq.events.length + 1 - 1),
          semCount := min (pq.semCount + 1) PQ_MAX_EVENT_SIZE }) := by
  unfold xPriorityQueueSend
  rw [if_pos rfl, if_neg hfull]

theorem recv_empty_sem_eq (pq : pq_handle_t) (hpos : ¬ 0 < pq.semCount) :
    xPriorityQueueReceive true pq = (pdFAIL, pq, none) := by
  unfold xPriorityQueueReceive
  rw [if_neg hpos]

theorem recv_ok_eq (pq : pq_handle_t) (hpos : 0 < pq.semCount)
    (hlen : 0 < pq.events.length) :
    xPriorityQueueReceive true pq =
      (pdPASS,
        { events :=
            heapifyDown
              ((pq.events.set 0
                  (pq.events.getD (pq.events.length - 1) default)).dropLast) 0,
          semCount := pq.semCount - 1 },
        some (pq.events.getD 0 default)) := by
  unfold xPriorityQueueReceive
  rw [if_pos hpos, if_pos rfl, if_pos hlen]

theorem popped_length (pq : pq_handle_t) :
    (heapifyDown
      ((pq.events.set 0
          (pq.events.getD (pq.events.length - 1) default)).dropLast) 0).length =
      pq.events.length - 1 := by
  rw [heapifyDown_length, List.length_dropLast, List.length_set]

theorem send_step_count (pq : pq_handle_t) (e : pq_event_t)
    (h : CountInv pq) :
    CountInv (xPriorityQueueSend true pq e).2 ∧
    (xPriorityQueueSend true pq e).2.events.length =
      pq.events.length +
        (if (xPriorityQueueSend true pq e).1 = pdPASS then 1 else 0) := by
  obtain ⟨hsem, hcap⟩ := h
  by_cases hfull : PQ_MAX_EVENT_SIZE ≤ pq.events.length
  · rw [send_full_eq pq e hfull]
    exact ⟨⟨hsem, hcap⟩, by simp⟩
  · rw [send_ok_eq pq e hfull]
    have hlen : (heapifyUp (pq.events ++ [e])
        (pq.events.length + 1 - 1)).length = pq.events.length + 1 := by
      rw [heapifyUp_length, List.length_append]
      rfl
    refine ⟨⟨?_, ?_⟩, ?_⟩
    · show min (pq.semCount + 1) PQ_MAX_EVENT_SIZE = _
      rw [hlen, hsem]
      unfold PQ_MAX_EVENT_SIZE at hfull ⊢
      omega
    · show (heapifyUp _ _).length ≤ _
      rw [hlen]
      unfold PQ_MAX_EVENT_SIZE at hfull ⊢
      omega
    · show (heapifyUp _ _).length = _ + (if pdPASS = pdPASS then 1 else 0)
      rw [hlen, if_pos rfl]

theorem recv_step_count (pq : pq_handle_t) (h : CountInv pq) :
    CountInv (xPriorityQueueReceive true pq).2.1 ∧
    (xPriorityQueueReceive true pq).2.1.events.length +
        (if (xPriorityQueueReceive true pq).1 = pdPASS then 1 else 0) =
      pq.events.length := by
  obtain ⟨hsem, hcap⟩ := h
  by_cases hpos : 0 < pq.semCount
  · have hlen : 0 < pq.events.length := by omega
    rw [recv_ok_eq pq hpos hlen]
    have hdl := popped_length pq
    refine ⟨⟨?_, ?_⟩, ?_⟩
    · show pq.semCount - 1 = _
      rw [hdl]
      omega
    · show (heapifyDown _ _).length ≤ _
      rw [hdl]
      omega
    · show (heapifyDown _ _).length + (if pdPASS = pdPASS then 1 else 0) = _
      rw [hdl, if_pos rfl]
      omega
  · rw [recv_empty_sem_eq pq hpos]
    exact ⟨⟨hsem, hcap⟩, by simp⟩

theorem runOps_count : ∀ (ops : List pq_op_t) (pq : pq_handle_t),
    CountInv pq →
    CountInv (runOps pq ops).1 ∧
    (runOps pq ops).1.events.length + (runOps pq ops).2.2 =
      pq.events.length + (runOps pq ops).2.1
  | [], pq, h => ⟨h, by simp [runOps]⟩
  | pq_op_t.send e :: ops, pq, h => by
      obtain ⟨h1, h2⟩ := send_step_count pq e h
      obtain ⟨ih1, ih2⟩ := runOps_count ops (xPriorityQueueSend true pq e).2 h1
      refine ⟨ih1, ?_⟩
      simp only [runOps]
      omega
  | pq_op_t.recv :: ops, pq, h => by
      obtain ⟨h1, h2⟩ := recv_step_count pq h
      obtain ⟨ih1, ih2⟩ := runOps_count ops (xPriorityQueueReceive true pq).2.1 h1
      refine ⟨ih1, ?_⟩
      simp only [runOps]
      omega

/-- C7: after any serialized sequence of send and receive calls starting
from a freshly created queue, the stored-event count equals the number of
successful sends minus the number of successful receives (stated without
truncated subtraction as `size + receives = sends`), and it never exceeds
the capacity `PQ_MAX_EVENT_SIZE = 10`. -/
theorem C7_round_trip_count (ops : List pq_op_t) :
    (runOps { events := [], semCount := 0 } ops).1.events.length +
        (runOps { events := [], semCount := 0 } ops).2.2 =
      (runOps { events := [], semCount := 0 } ops).2.1 ∧
    (runOps { events := [], semCount := 0 } ops).1.events.length ≤
      PQ_MAX_EVENT_SIZE := by
  obtain ⟨h1, h2⟩ := runOps_count ops { events := [], semCount := 0 }
    ⟨rfl, by decide⟩
  exact ⟨by simpa using h2, h1.2⟩

/-- Max-heap order over the occupied prefix (child form, as in the claim):
every in-range child is at most its parent. -/
def IsMaxHeap (l : List pq_event_t) : Prop :=
  ∀ i j, (j = 2 * i + 1 ∨ j = 2 * i + 2) → j < l.length → getP l j ≤ getP l i

theorem parent_eq (i j : Nat) (h : j = 2 * i + 1 ∨ j = 2 * i + 2) :
    i = (j - 1) / 2 := by omega

theorem child_self (k : Nat) (h : 0 < k) :
    k = 2 * ((k - 1) / 2) + 1 ∨ k = 2 * ((k - 1) / 2) + 2 := by omega

/-- Sift-up state: heap order holds everywhere except possibly on the edge
into `k`, and the children of `k` are bounded by the parent of `k`. -/
def UpInv (l : List pq_event_t) (k : Nat) : Prop :=
  (∀ i j, (j = 2 * i + 1 ∨ j = 2 * i + 2) → j < l.length → j ≠ k →
    getP l j ≤ getP l i) ∧
  (0 < k → ∀ j, (j = 2 * k + 1 ∨ j = 2 * k + 2) → j < l.length →
    getP l j ≤ getP l ((k - 1) / 2))

/-- Sift-down state: heap order holds everywhere except possibly on the
edges out of `k`, and the children of `k` are bounded by the parent of `k`. -/
def DownInv (l : List pq_event_t) (k : Nat) : Prop :=
  (∀ i j, (j = 2 * i + 1 ∨ j = 2 * i + 2) → j < l.length → i ≠ k →
    getP l j ≤ getP l i) ∧
  (0 < k → ∀ j, (j = 2 * k + 1 ∨ j = 2 * k + 2) → j < l.length →
    getP l j ≤ getP l ((k - 1) / 2))

theorem upInv_swap (l : List pq_event_t) (k : Nat) (hk : k < l.length)
    (hkpos : 0 < k) (hinv : UpInv l k)
    (hcond : getP l ((k - 1) / 2) < getP l k) :
    UpInv (swapL l k ((k - 1) / 2)) ((k - 1) / 2) := by
  have hplt : (k - 1) / 2 < k := by omega
  have hplen : (k - 1) / 2 < l.length := lt_trans hplt hk
  have hkp : k ≠ (k - 1) / 2 := by omega
  have gk : getP (swapL l k ((k - 1) / 2)) k = getP l ((k - 1) / 2) :=
    getP_swapL_fst l k ((k - 1) / 2) hk hkp
  have gp : getP (swapL l k ((k - 1) / 2)) ((k - 1) / 2) = getP l k :=
    getP_swapL_snd l k ((k - 1) / 2) hplen
  have gother : ∀ t, t ≠ k → t ≠ (k - 1) / 2 →
      getP (swapL l k ((k - 1) / 2)) t = getP l t :=
    fun t h1 h2 => getP_swapL_other l k ((k - 1) / 2) t h1 h2
  constructor
  · intro i j hchild hjlen hjp
    rw [swapL_length] at hjlen
    have hij : i = (j - 1) / 2 := parent_eq i j hchild
    by_cases hjk : j = k
    · subst hjk
      have hip : i = (j - 1) / 2 := hij
      subst hip
      rw [gk, gp]
      exact le_of_lt hcond
    · by_cases hik : i = k
      · subst hik
        rw [gother j hjk hjp, gk]
        exact hinv.2 hkpos j hchild hjlen
      · by_cases hip : i = (k - 1) / 2
        · subst hip
          rw [gother j hjk hjp, gp]
          exact le_trans (hinv.1 _ j hchild hjlen hjk) (le_of_lt hcond)
        · rw [gother j hjk hjp, gother i hik hip]
          exact hinv.1 i j hchild hjlen hjk
  · intro hppos j hchild hjlen
    rw [swapL_length] at hjlen
    have hgk : ((k - 1) / 2 - 1) / 2 ≠ k := by omega
    have hgp : ((k - 1) / 2 - 1) / 2 ≠ (k - 1) / 2 := by omega
    have hpc : (k - 1) / 2 = 2 * (((k - 1) / 2 - 1) / 2) + 1 ∨
        (k - 1) / 2 = 2 * (((k - 1) / 2 - 1) / 2) + 2 := child_self _ hppos
    have hple : getP l ((k - 1) / 2) ≤ getP l (((k - 1) / 2 - 1) / 2) :=
      hinv.1 _ _ hpc hplen (by omega)
    rw [gother _ hgk hgp]
    by_cases hjk : j = k
    · subst hjk
      rw [gk]
      exact hple
    · have hjp : j ≠ (k - 1) / 2 := by
        rcases hchild with hc | hc <;> omega
      rw [gother j hjk hjp]
      exact le_trans (hinv.1 _ j hchild hjlen hjk) hple

theorem heapifyUp_maxheap : ∀ (n k : Nat) (l : List pq_event_t), k ≤ n →
    UpInv l k → k < l.length → IsMaxHeap (heapifyUp l k)
  | 0, k, l, hn, hinv, _ => by
      have hk0 : k = 0 := by omega
      subst hk0
      unfold heapifyUp
      rw [dif_neg (lt_irrefl (getP l 0))]
      intro i j hchild hjlen
      exact hinv.1 i j hchild hjlen (by rcases hchild with hc | hc <;> omega)
  | n + 1, k, l, hn, hinv, hk => by
      unfold heapifyUp
      split
      · next hcond =>
          have hk0 : 0 < k := by
            rcases Nat.eq_zero_or_pos k with h0 | h0
            · subst h0
              exact absurd hcond (lt_irrefl _)
            · exact h0
          exact heapifyUp_maxheap n ((k - 1) / 2) (swapL l k ((k - 1) / 2))
            (by omega) (upInv_swap l k hk hk0 hinv hcond)
            (by rw [swapL_length]; omega)
      · next hcond =>
          intro i j hchild hjlen
          by_cases hjk : j = k
          · subst hjk
            have hip : i = (j - 1) / 2 := parent_eq i j hchild
            subst hip
            exact not_lt.mp hcond
          · exact hinv.1 i j hchild hjlen hjk

theorem largestIdx_of_out (l : List pq_event_t) (k : Nat)
    (h : l.length ≤ k) : largestIdx l k = k := by
  have hna : ¬ (2 * k + 1 < l.length ∧ getP l k < getP l (2 * k + 1)) :=
    fun hx => absurd hx.1 (by omega)
  have h1 : largestIdx1 l k = k := by
    unfold largestIdx1
    rw [if_neg hna]
  have hnb : ¬ (2 * k + 2 < l.length ∧
      getP l (largestIdx1 l k) < getP l (2 * k + 2)) :=
    fun hx => absurd hx.1 (by omega)
  unfold largestIdx
  rw [if_neg hnb, h1]

theorem downInv_swap (l : List pq_event_t) (k : Nat) (hinv : DownInv l k)
    (hlt : k < largestIdx l k) (hlen : largestIdx l k < l.length)
    (hchild : largestIdx l k = 2 * k + 1 ∨ largestIdx l k = 2 * k + 2)
    (hval : getP l k < getP l (largestIdx l k)) :
    DownInv (swapL l k (largestIdx l k)) (largestIdx l k) := by
  have hk : k < l.length := lt_trans hlt hlen
  have hkc : k ≠ largestIdx l k := by omega
  have gk : getP (swapL l k (largestIdx l k)) k = getP l (largestIdx l k) :=
    getP_swapL_fst l k _ hk hkc
  have gc : getP (swapL l k (largestIdx l k)) (largestIdx l k) = getP l k :=
    getP_swapL_snd l k _ hlen
  have gother : ∀ t, t ≠ k → t ≠ largestIdx l k →
      getP (swapL l k (largestIdx l k)) t = getP l t :=
    fun t h1 h2 => getP_swapL_other l k _ t h1 h2
  have hck : k = (largestIdx l k - 1) / 2 := parent_eq k _ hchild
  constructor
  · intro i j hchildij hjlen hic
    rw [swapL_length] at hjlen
    have hij : i = (j - 1) / 2 := parent_eq i j hchildij
    by_cases hjk : j = k
    · subst hjk
      have hkpos : 0 < j := by rcases hchildij with hc | hc <;> omega
      have hika : i ≠ j := by omega
      rw [gk, gother i hika hic]
      rw [hij]
      exact hinv.2 hkpos _ hchild hlen
    · by_cases hjc : j = largestIdx l k
      · subst hjc
        have hik : i = k := by omega
        subst hik
        rw [gc, gk]
        exact le_of_lt hval
      · rw [gother j hjk hjc]
        by_cases hik : i = k
        · subst hik
          rw [gk]
          exact largestIdx_dominates l i j hjlen hchildij
        · rw [gother i hik hic]
          exact hinv.1 i j hchildij hjlen hik
  · intro hcpos j hchildjc hjlen
    rw [swapL_length] at hjlen
    have hjgt : largestIdx l k < j := by rcases hchildjc with hc | hc <;> omega
    have hjk : j ≠ k := by omega
    have hjc : j ≠ largestIdx l k := by omega
    rw [gother j hjk hjc, ← hck, gk]
    exact hinv.1 _ j hchildjc hjlen (by omega)

theorem heapifyDown_maxheap : ∀ (n : Nat) (l : List pq_event_t) (k : Nat),
    l.length - k ≤ n → DownInv l k → IsMaxHeap (heapifyDown l k)
  | 0, l, k, hn, hinv => by
      have hout : l.length ≤ k := by omega
      unfold heapifyDown
      rw [dif_neg (not_ne_iff.mpr (largestIdx_of_out l k hout))]
      intro i j hchild hjlen
      refine hinv.1 i j hchild hjlen ?_
      have := parent_eq i j hchild
      omega
  | n + 1, l, k, hn, hinv => by
      unfold heapifyDown
      split
      · next hne =>
          rcases largestIdx_cases l k with heq | ⟨hlt, hlen, hchild, hval⟩
          · exact absurd heq hne
          exact heapifyDown_maxheap n (swapL l k (largestIdx l k))
            (largestIdx l k) (by rw [swapL_length]; omega)
            (downInv_swap l k hinv hlt hlen hchild hval)
      · next hne =>
          have heq : largestIdx l k = k := not_ne_iff.mp hne
          intro i j hchild hjlen
          by_cases hik : i = k
          · subst hik
            have hdom := largestIdx_dominates l i j hjlen hchild
            rw [heq] at hdom
            exact hdom
          · exact hinv.1 i j hchild hjlen hik

theorem getD_append_lt : ∀ (l : List pq_event_t) (e : pq_event_t) (t : Nat)
    (d : pq_event_t), t < l.length → (l ++ [e]).getD t d = l.getD t d
  | [], _, t, _, h => by simp at h
  | _ :: _, _, 0, _, _ => rfl
  | x :: xs, e, t + 1, d, h => by
      have := getD_append_lt xs e t d (by simpa using h)
      simpa [List.getD] using this

theorem getP_append_lt (l : List pq_event_t) (e : pq_event_t) (t : Nat)
    (h : t < l.length) : getP (l ++ [e]) t = getP l t := by
  unfold getP
  rw [getD_append_lt l e t default h]

theorem upInv_append (l : List pq_event_t) (e : pq_event_t)
    (h : IsMaxHeap l) : UpInv (l ++ [e]) l.length := by
  constructor
  · intro i j hchild hjlen hjk
    simp only [List.length_append, List.length_cons, List.length_nil] at hjlen
    have hj : j < l.length := by omega
    have hij : i = (j - 1) / 2 := parent_eq i j hchild
    have hi : i < l.length := by omega
    rw [getP_append_lt l e j hj, getP_append_lt l e i hi]
    exact h i j hchild hj
  · intro _ j hchild hjlen
    simp only [List.length_append, List.length_cons, List.length_nil] at hjlen
    rcases hchild with hc | hc <;> omega

theorem send_len_succ (pq : pq_handle_t) (e : pq_event_t)
    (hfull : ¬ PQ_MAX_EVENT_SIZE ≤ pq.events.length) :
    (xPriorityQueueSend true pq e).2.events.length = pq.events.length + 1 := by
  rw [send_ok_eq pq e hfull]
  show (heapifyUp (pq.events ++ [e]) (pq.events.length + 1 - 1)).length = _
  rw [heapifyUp_length]
  simp

theorem send_preserves_heap (pq : pq_handle_t) (e : pq_event_t)
    (h : IsMaxHeap pq.events) :
    IsMaxHeap ((xPriorityQueueSend true pq e).2.events) := by
  by_cases hfull : PQ_MAX_EVENT_SIZE ≤ pq.events.length
  · rw [send_full_eq pq e hfull]
    exact h
  · rw [send_ok_eq pq e hfull]
    show IsMaxHeap (heapifyUp (pq.events ++ [e]) (pq.events.length + 1 - 1))
    have hidx : pq.events.length + 1 - 1 = pq.events.length := by omega
    rw [hidx]
    exact heapifyUp_maxheap pq.events.length pq.events.length
      (pq.events ++ [e]) (le_refl _) (upInv_append pq.events e h) (by simp)

theorem getD_dropLast : ∀ (l : List pq_event_t) (t : Nat) (d : pq_event_t),
    t < l.length - 1 → l.dropLast.getD t d = l.getD t d
  | [], _, _, h => by simp at h
  | [_], _, _, h => by simp at h
  | _ :: _ :: _, 0, _, _ => rfl
  | x :: y :: xs, t + 1, d, h => by
      have := getD_dropLast (y :: xs) t d (by
        simp only [List.length_cons] at h ⊢
        omega)
      simpa [List.getD, List.dropLast] using this

theorem getP_popped_mid (l : List pq_event_t) (x : pq_event_t) (t : Nat)
    (h1 : t ≠ 0) (h2 : t < l.length - 1) :
    getP ((l.set 0 x).dropLast) t = getP l t := by
  unfold getP
  rw [getD_dropLast (l.set 0 x) t default (by simpa using h2),
      getD_set_ne l 0 t x default (fun hh => h1 hh.symm)]

theorem getP_popped_zero (l : List pq_event_t) (x : pq_event_t)
    (h : 1 < l.length) :
    getP ((l.set 0 x).dropLast) 0 = x.priority.toNat := by
  unfold getP
  rw [getD_dropLast (l.set 0 x) 0 default (by simpa using by omega : 0 < (l.set 0 x).length - 1),
      getD_set_self l 0 x default (by omega)]

theorem downInv_popped (l : List pq_event_t) (x : pq_event_t)
    (h : IsMaxHeap l) : DownInv ((l.set 0 x).dropLast) 0 := by
  constructor
  · intro i j hchild hjlen hik
    have hlen2 : ((l.set 0 x).dropLast).length = l.length - 1 := by simp
    rw [hlen2] at hjlen
    have hij : i = (j - 1) / 2 := parent_eq i j hchild
    have hjpos : 0 < j := by rcases hchild with hc | hc <;> omega
    rw [getP_popped_mid l x j (by omega) hjlen,
        getP_popped_mid l x i hik (by omega)]
    exact h i j hchild (by omega)
  · intro h0
    exact absurd h0 (lt_irrefl 0)

theorem receive_preserves_heap (pq : pq_handle_t)
    (h : IsMaxHeap pq.events) :
    IsMaxHeap ((xPriorityQueueReceive true pq).2.1.events) := by
  by_cases hpos : 0 < pq.semCount
  · by_cases hlen : 0 < pq.events.length
    · rw [recv_ok_eq pq hpos hlen]
      show IsMaxHeap (heapifyDown _ 0)
      exact heapifyDown_maxheap
        ((pq.events.set 0
          (pq.events.getD (pq.events.length - 1) default)).dropLast).length
        ((pq.events.set 0
          (pq.events.getD (pq.events.length - 1) default)).dropLast)
        0 (by omega) (downInv_popped pq.events _ h)
    · unfold xPriorityQueueReceive
      rw [if_pos hpos, if_pos rfl, if_neg hlen]
      exact h
  · rw [recv_empty_sem_eq pq hpos]
    exact h

/-- Root dominance: in a max-heap every occupied priority is at most the
root's priority (fuel argument bounds the parent walk). -/
theorem root_max : ∀ (n : Nat) (l : List pq_event_t), IsMaxHeap l →
    ∀ j, j ≤ n → j < l.length → getP l j ≤ getP l 0
  | 0, l, _, j, hn, _ => by
      have hj0 : j = 0 := by omega
      subst hj0
      exact le_refl _
  | n + 1, l, h, j, hn, hj => by
      rcases Nat.eq_zero_or_pos j with h0 | h0
      · subst h0
        exact le_refl _
      · exact le_trans (h _ j (child_self j h0) hj)
          (root_max n l h ((j - 1) / 2) (by omega) (by omega))

/-- States reachable from a freshly created queue by serialized send and
receive calls. -/
inductive Reachable : pq_handle_t → Prop where
  | init : Reachable { events := [], semCount := 0 }
  | send (pq : pq_handle_t) (e : pq_event_t) :
      Reachable pq → Reachable (xPriorityQueueSend true pq e).2
  | recv (pq : pq_handle_t) :
      Reachable pq → Reachable (xPriorityQueueReceive true pq).2.1

theorem reachable_inv (pq : pq_handle_t) (h : Reachable pq) :
    IsMaxHeap pq.events ∧ CountInv pq := by
  induction h with
  | init =>
      refine ⟨?_, rfl, by decide⟩
      intro i j hc hj
      simp at hj
  | send pq e _ ih =>
      exact ⟨send_preserves_heap pq e ih.1, (send_step_count pq e ih.2).1⟩
  | recv pq _ ih =>
      exact ⟨receive_preserves_heap pq ih.1, (recv_step_count pq ih.2).1⟩

/-- C1: every queue state reachable from the empty queue by serialized send
and receive calls satisfies the max-heap order over the occupied prefix —
each in-range child `2i+1`, `2i+2` has priority at most its parent `i` —
and consequently the root priority dominates every occupied priority. -/
theorem C1_reachable_max_heap (pq : pq_handle_t) (h : Reachable pq) :
    (∀ i, (2 * i + 1 < pq.events.length →
        getP pq.events (2 * i + 1) ≤ getP pq.events i) ∧
      (2 * i + 2 < pq.events.length →
        getP pq.events (2 * i + 2) ≤ getP pq.events i)) ∧
    (∀ j, j < pq.events.length → getP pq.events j ≤ getP pq.events 0) := by
  obtain ⟨hheap, _⟩ := reachable_inv pq h
  refine ⟨fun i => ⟨fun hj => hheap i _ (Or.inl rfl) hj,
    fun hj => hheap i _ (Or.inr rfl) hj⟩, ?_⟩
  intro j hj
  exact root_max j pq.events hheap j (le_refl _) hj

theorem C1_reachable_max_heap_witness :
    getP (xPriorityQueueSend true
        (xPriorityQueueSend true { events := [], semCount := 0 }
          { priority := .HIGH_PRIORITY }).2
        { priority := .LOW_PRIORITY }).2.events 1 ≤
      getP (xPriorityQueueSend true
        (xPriorityQueueSend true { events := [], semCount := 0 }
          { priority := .HIGH_PRIORITY }).2
        { priority := .LOW_PRIORITY }).2.events 0 := by
  have hlen1 : (xPriorityQueueSend true { events := [], semCount := 0 }
      { priority := pq_priority_t.HIGH_PRIORITY }).2.events.length = 1 := by
    rw [send_len_succ _ _ (by decide)]
    rfl
  refine (C1_reachable_max_heap _
    (Reachable.send _ _ (Reachable.send _ _ Reachable.init))).2 1 ?_
  rw [send_len_succ _ _ (by rw [hlen1]; decide), hlen1]
  decide

/-- Every priority stored in `m` occurs somewhere in `l` (the heap walks
only permute values, so results draw their values from their input). -/
def ValsIn (m l : List pq_event_t) : Prop :=
  ∀ t, t < m.length → ∃ s, s < l.length ∧ getP m t = getP l s

theorem valsIn_refl (l : List pq_event_t) : ValsIn l l :=
  fun t ht => ⟨t, ht, rfl⟩

theorem valsIn_trans {m2 m1 l : List pq_event_t} (h2 : ValsIn m2 m1)
    (h1 : ValsIn m1 l) : ValsIn m2 l := by
  intro t ht
  obtain ⟨s, hs, he⟩ := h2 t ht
  obtain ⟨r, hr, he2⟩ := h1 s hs
  exact ⟨r, hr, he.trans he2⟩

theorem valsIn_swapL (l : List pq_event_t) (i j : Nat) (hi : i < l.length)
    (hj : j < l.length) : ValsIn (swapL l i j) l := by
  intro t ht
  rw [swapL_length] at ht
  by_cases htj : t = j
  · exact ⟨i, hi, by rw [htj]; exact getP_swapL_snd l i j hj⟩
  · by_cases hti : t = i
    · have hij : i ≠ j := fun hh => htj (by rw [hti, hh])
      exact ⟨j, hj, by rw [hti]; exact getP_swapL_fst l i j hi hij⟩
    · exact ⟨t, ht, getP_swapL_other l i j t hti htj⟩

theorem valsIn_heapifyDown : ∀ (n : Nat) (l : List pq_event_t) (k : Nat),
    l.length - k ≤ n → ValsIn (heapifyDown l k) l
  | 0, l, k, hn => by
      unfold heapifyDown
      rw [dif_neg (not_ne_iff.mpr (largestIdx_of_out l k (by omega)))]
      exact valsIn_refl l
  | n + 1, l, k, hn => by
      unfold heapifyDown
      split
      · next hne =>
          rcases largestIdx_cases l k with heq | ⟨hlt, hlen, _, _⟩
          · exact absurd heq hne
          exact valsIn_trans
            (valsIn_heapifyDown n (swapL l k (largestIdx l k))
              (largestIdx l k) (by rw [swapL_length]; omega))
            (valsIn_swapL l k (largestIdx l k) (lt_trans hlt hlen) hlen)
      · exact valsIn_refl l

/-- Combined sequential invariant: heap order plus count bookkeeping. -/
def HInv (pq : pq_handle_t) : Prop :=
  IsMaxHeap pq.events ∧ CountInv pq

/-- After a successful receive, the new root's priority is at most the old
root's priority. -/
theorem receive_root_le (pq : pq_handle_t) (hheap : IsMaxHeap pq.events)
    (hpos : 0 < pq.semCount) (hlen : 0 < pq.events.length) :
    getP ((xPriorityQueueReceive true pq).2.1.events) 0 ≤
      getP pq.events 0 := by
  rw [recv_ok_eq pq hpos hlen]
  show getP (heapifyDown
    ((pq.events.set 0
      (pq.events.getD (pq.events.length - 1) default)).dropLast) 0) 0 ≤ _
  by_cases hm : 0 < (heapifyDown
      ((pq.events.set 0
        (pq.events.getD (pq.events.length - 1) default)).dropLast) 0).length
  · obtain ⟨s, hs, he⟩ := valsIn_heapifyDown
      ((pq.events.set 0
        (pq.events.getD (pq.events.length - 1) default)).dropLast).length
      ((pq.events.set 0
        (pq.events.getD (pq.events.length - 1) default)).dropLast) 0
      (by omega) 0 hm
    rw [he]
    have hs2 : s < pq.events.length - 1 := by simpa using hs
    by_cases hs0 : s = 0
    · subst hs0
      rw [getP_popped_zero pq.events _ (by omega)]
      have : getP pq.events (pq.events.length - 1) =
          (pq.events.getD (pq.events.length - 1) default).priority.toNat := rfl
      rw [← this]
      exact root_max (pq.events.length - 1) pq.events hheap
        (pq.events.length - 1) (le_refl _) (by omega)
    · rw [getP_popped_mid pq.events _ s hs0 hs2]
      exact root_max s pq.events hheap s (le_refl _) (by omega)
  · rw [getP_out_of_range _ 0 (by omega)]
    exact Nat.zero_le _

theorem receive_step_hinv (pq : pq_handle_t) (h : HInv pq) :
    HInv (xPriorityQueueReceive true pq).2.1 :=
  ⟨receive_preserves_heap pq h.1, (recv_step_count pq h.2).1⟩

/-- Priorities of the events delivered by `n` successive serialized
receives (failed receives deliver nothing). -/
def recvPrios : pq_handle_t → Nat → List Nat
  | _, 0 => []
  | pq, n + 1 =>
    match xPriorityQueueReceive true pq with
    | (_, pq2, some e) => e.priority.toNat :: recvPrios pq2 n
    | (_, pq2, none) => recvPrios pq2 n

theorem recvPrios_succ (pq : pq_handle_t) (n : Nat) :
    recvPrios pq (n + 1) =
      match xPriorityQueueReceive true pq with
      | (_, pq2, some e) => e.priority.toNat :: recvPrios pq2 n
      | (_, pq2, none) => recvPrios pq2 n := rfl

theorem recvPrios_succ_pos (pq : pq_handle_t) (n : Nat)
    (hpos : 0 < pq.semCount) (hlen : 0 < pq.events.length) :
    recvPrios pq (n + 1) =
      (pq.events.getD 0 default).priority.toNat ::
        recvPrios (xPriorityQueueReceive true pq).2.1 n := by
  rw [recvPrios_succ pq n, recv_ok_eq pq hpos hlen]

theorem recvPrios_succ_neg (pq : pq_handle_t) (n : Nat)
    (hpos : ¬ 0 < pq.semCount) :
    recvPrios pq (n + 1) = recvPrios pq n := by
  rw [recvPrios_succ pq n, recv_empty_sem_eq pq hpos]

theorem recvPrios_head : ∀ (n : Nat) (pq : pq_handle_t), HInv pq →
    ∀ x, (recvPrios pq n).head? = some x → x ≤ getP pq.events 0
  | 0, pq, _, x, hx => by simp [recvPrios] at hx
  | n + 1, pq, h, x, hx => by
      by_cases hpos : 0 < pq.semCount
      · have hlen : 0 < pq.events.length := by
          have := h.2.1
          omega
        rw [recvPrios_succ_pos pq n hpos hlen] at hx
        simp only [List.head?_cons, Option.some.injEq] at hx
        subst hx
        exact le_refl _
      · rw [recvPrios_succ_neg pq n hpos] at hx
        exact recvPrios_head n pq h x hx

theorem recvPrios_chain : ∀ (n : Nat) (pq : pq_handle_t), HInv pq →
    List.Chain' (fun a b => b ≤ a) (recvPrios pq n)
  | 0, _, _ => by simp [recvPrios]
  | n + 1, pq, h => by
      by_cases hpos : 0 < pq.semCount
      · have hlen : 0 < pq.events.length := by
          have := h.2.1
          omega
        rw [recvPrios_succ_pos pq n hpos hlen]
        refine List.chain'_cons'.mpr ⟨?_, recvPrios_chain n _
          (receive_step_hinv pq h)⟩
        intro y hy
        have hy2 : (recvPrios (xPriorityQueueReceive true pq).2.1 n).head? =
            some y := hy
        have h1 := recvPrios_head n _ (receive_step_hinv pq h) y hy2
        have h2 := receive_root_le pq h.1 hpos hlen
        exact le_trans h1 h2
      · rw [recvPrios_succ_neg pq n hpos]
        exact recvPrios_chain n pq h

/-- Fold of serialized sends, following the order of the input list. -/
def sendAll : pq_handle_t → List pq_event_t → pq_handle_t
  | pq, [] => pq
  | pq, e :: es => sendAll (xPriorityQueueSend true pq e).2 es

theorem sendAll_spec : ∀ (es : List pq_event_t) (pq : pq_handle_t),
    HInv pq → pq.events.length + es.length ≤ PQ_MAX_EVENT_SIZE →
    HInv (sendAll pq es) ∧
    (sendAll pq es).events.length = pq.events.length + es.length ∧
    runOps pq (es.map pq_op_t.send) = (sendAll pq es, es.length, 0)
  | [], pq, h, _ => ⟨h, by simp [sendAll], by simp [sendAll, runOps]⟩
  | e :: es, pq, h, hcap => by
      have hnf : ¬ PQ_MAX_EVENT_SIZE ≤ pq.events.length := by
        simp only [List.length_cons] at hcap
        omega
      have hsucc : (xPriorityQueueSend true pq e).1 = pdPASS := by
        rw [send_ok_eq pq e hnf]
      have hstep : HInv (xPriorityQueueSend true pq e).2 :=
        ⟨send_preserves_heap pq e h.1, (send_step_count pq e h.2).1⟩
      have hlen : (xPriorityQueueSend true pq e).2.events.length =
          pq.events.length + 1 := send_len_succ pq e hnf
      obtain ⟨ih1, ih2, ih3⟩ := sendAll_spec es (xPriorityQueueSend true pq e).2
        hstep (by
          rw [hlen]
          simp only [List.length_cons] at hcap
          omega)
      refine ⟨ih1, ?_, ?_⟩
      · rw [show sendAll pq (e :: es) =
            sendAll (xPriorityQueueSend true pq e).2 es from rfl, ih2, hlen]
        simp only [List.length_cons]
        omega
      · simp only [List.map_cons, runOps]
        rw [ih3, hsucc, if_pos rfl]
        rw [show sendAll pq (e :: es) =
            sendAll (xPriorityQueueSend true pq e).2 es from rfl]
        simp only [List.length_cons, Prod.mk.injEq, true_and, and_true]
        omega

/-- C2: for every batch of at most `PQ_MAX_EVENT_SIZE` events sent into a
fresh queue, the sends all succeed (the run of the mapped send operations
reports `es.length` successes) and the priorities delivered by the
subsequent receives form a non-increasing sequence; in the concrete
scenario the events Low, High, Medium are received as High, Medium, Low and
the fourth receive (on the now-empty queue) fails. -/
theorem C2_max_extraction (es : List pq_event_t)
    (h : es.length ≤ PQ_MAX_EVENT_SIZE) :
    runOps { events := [], semCount := 0 } (es.map pq_op_t.send) =
      (sendAll { events := [], semCount := 0 } es, es.length, 0) ∧
    List.Chain' (fun a b => b ≤ a)
      (recvPrios (sendAll { events := [], semCount := 0 } es) es.length) ∧
    recvPrios (sendAll { events := [], semCount := 0 }
        [{ priority := .LOW_PRIORITY }, { priority := .HIGH_PRIORITY },
         { priority := .MEDIUM_PRIORITY }]) 3 = [2, 1, 0] ∧
    (xPriorityQueueReceive true
      (xPriorityQueueReceive true
        (xPriorityQueueReceive true
          (xPriorityQueueReceive true
            (sendAll { events := [], semCount := 0 }
              [{ priority := .LOW_PRIORITY }, { priority := .HIGH_PRIORITY },
               { priority := .MEDIUM_PRIORITY }])).2.1).2.1).2.1).1 =
      pdFAIL := by
  have hinv0 : HInv { events := [], semCount := 0 } := by
    refine ⟨?_, rfl, by decide⟩
    intro i j hc hj
    simp at hj
  obtain ⟨ih1, _, ih3⟩ := sendAll_spec es { events := [], semCount := 0 }
    hinv0 (by simpa using h)
  refine ⟨by simpa using ih3, recvPrios_chain es.length _ ih1, ?_, ?_⟩ <;>
    simp [sendAll, recvPrios, xPriorityQueueSend, xPriorityQueueReceive,
      heapifyUp, heapifyDown, largestIdx, largestIdx1, swapL, getP,
      PQ_MAX_EVENT_SIZE, pq_priority_t.toNat, List.getD]

theorem C2_max_extraction_witness :
    recvPrios (sendAll { events := [], semCount := 0 }
        [{ priority := .LOW_PRIORITY }, { priority := .HIGH_PRIORITY },
         { priority := .MEDIUM_PRIORITY }]) 3 = [2, 1, 0] :=
  (C2_max_extraction
    [{ priority := .LOW_PRIORITY }, { priority := .HIGH_PRIORITY },
     { priority := .MEDIUM_PRIORITY }] (by decide)).2.2.1

/-- Bounds-checked mirror of `_heapifyUp`: each iteration reads
`events[index]` and `events[parentIndex]`, so both indices are checked
against the occupied prefix; `none` signals an out-of-bounds access. -/
def heapifyUpC (l : List pq_event_t) (index : Nat) :
    Option (List pq_event_t) :=
  if index < l.length ∧ (index - 1) / 2 < l.length then
    if h : getP l ((index - 1) / 2) < getP l index then
      heapifyUpC (swapL l index ((index - 1) / 2)) ((index - 1) / 2)
    else some l
  else none
termination_by index
decreasing_by
  rcases Nat.eq_zero_or_pos index with h0 | h0
  · subst h0
    simp at h
  · omega

theorem largestIdx1_le (l : List pq_event_t) (k : Nat) :
    largestIdx1 l k ≤ 2 * k + 1 := by
  rcases largestIdx1_cases l k with hc | hc
  · omega
  · omega

/-- Bounds-checked mirror of `_heapifyDown`: the reads of `events[leftChild]`
and `events[rightChild]` are protected by the source's own guards, so the
checks cover the accompanying reads of `events[smallest]` and the two cells
touched by the swap. -/
def heapifyDownC (l : List pq_event_t) (index : Nat) :
    Option (List pq_event_t) :=
  if 2 * index + 1 < l.length ∧ ¬ index < l.length then none
  else if 2 * index + 2 < l.length ∧ ¬ largestIdx1 l index < l.length then
    none
  else if h : largestIdx l index ≠ index then
    if index < l.length ∧ largestIdx l index < l.length then
      heapifyDownC (swapL l index (largestIdx l index)) (largestIdx l index)
    else none
  else some l
termination_by l.length - index
decreasing_by
  rcases largestIdx_cases l index with h1 | h1
  · exact absurd h1 h
  · simp only [swapL_length]
    omega

theorem heapifyUpC_eq : ∀ (n k : Nat) (l : List pq_event_t), k ≤ n →
    k < l.length → heapifyUpC l k = some (heapifyUp l k)
  | 0, k, l, hn, hk => by
      have hk0 : k = 0 := by omega
      subst hk0
      unfold heapifyUpC heapifyUp
      rw [if_pos ⟨hk, hk⟩, dif_neg (lt_irrefl (getP l 0)),
        dif_neg (lt_irrefl (getP l 0))]
  | n + 1, k, l, hn, hk => by
      unfold heapifyUpC heapifyUp
      rw [if_pos ⟨hk, by omega⟩]
      by_cases hcond : getP l ((k - 1) / 2) < getP l k
      · rw [dif_pos hcond, dif_pos hcond]
        have hk0 : 0 < k := by
          rcases Nat.eq_zero_or_pos k with h0 | h0
          · subst h0
            exact absurd hcond (lt_irrefl _)
          · exact h0
        exact heapifyUpC_eq n ((k - 1) / 2) (swapL l k ((k - 1) / 2))
          (by omega) (by rw [swapL_length]; omega)
      · rw [dif_neg hcond, dif_neg hcond]

theorem heapifyDownC_eq : ∀ (n : Nat) (l : List pq_event_t) (k : Nat),
    l.length - k ≤ n → heapifyDownC l k = some (heapifyDown l k)
  | 0, l, k, hn => by
      have hout : l.length ≤ k := by omega
      unfold heapifyDownC heapifyDown
      rw [if_neg (by omega : ¬ (2 * k + 1 < l.length ∧ ¬ k < l.length)),
        if_neg (by
          have := largestIdx1_le l k
          omega : ¬ (2 * k + 2 < l.length ∧ ¬ largestIdx1 l k < l.length)),
        dif_neg (not_ne_iff.mpr (largestIdx_of_out l k hout)),
        dif_neg (not_ne_iff.mpr (largestIdx_of_out l k hout))]
  | n + 1, l, k, hn => by
      unfold heapifyDownC heapifyDown
      rw [if_neg (by omega : ¬ (2 * k + 1 < l.length ∧ ¬ k < l.length)),
        if_neg (by
          have := largestIdx1_le l k
          omega : ¬ (2 * k + 2 < l.length ∧ ¬ largestIdx1 l k < l.length))]
      by_cases hne : largestIdx l k ≠ k
      · rcases largestIdx_cases l k with heq | ⟨hlt, hlen, _, _⟩
        · exact absurd heq hne
        rw [dif_pos hne, dif_pos hne, if_pos ⟨lt_trans hlt hlen, hlen⟩]
        exact heapifyDownC_eq n (swapL l k (largestIdx l k)) (largestIdx l k)
          (by rw [swapL_length]; omega)
      · rw [dif_neg hne, dif_neg hne]

/-- Bounds-checked mirror of `xPriorityQueueSend`: the store
`events[size] = *event` is checked against the array capacity
`PQ_MAX_EVENT_SIZE` before the sift-up runs. -/
def xPriorityQueueSendC (mutexOk : Bool) (pq : pq_handle_t)
    (event : pq_event_t) : Option (BaseType_t × pq_handle_t) :=
  if mutexOk then
    if PQ_MAX_EVENT_SIZE ≤ pq.events.length then
      some (pdFAIL, pq)
    else
      if pq.events.length < PQ_MAX_EVENT_SIZE then
        (heapifyUpC (pq.events ++ [event]) (pq.events.length + 1 - 1)).map
          (fun l2 => (pdPASS,
            { events := l2,
              semCount := min (pq.semCount + 1) PQ_MAX_EVENT_SIZE }))
      else none
  else some (pdFAIL, pq)

/-- Bounds-checked mirror of `xPriorityQueueReceive`: the reads of
`events[0]` and `events[size - 1]` are checked under the `0 < size` guard
before the sift-down runs. -/
def xPriorityQueueReceiveC (mutexOk : Bool) (pq : pq_handle_t) :
    Option (BaseType_t × pq_handle_t × Option pq_event_t) :=
  if 0 < pq.semCount then
    if mutexOk then
      if 0 < pq.events.length then
        if 0 < pq.events.length ∧
            pq.events.length - 1 < pq.events.length then
          (heapifyDownC
            ((pq.events.set 0
              (pq.events.getD (pq.events.length - 1) default)).dropLast)
            0).map
            (fun l2 =>
              (pdPASS, { events := l2, semCount := pq.semCount - 1 },
                some (pq.events.getD 0 default)))
        else none
      else
        some (pdPASS, { events := pq.events, semCount := pq.semCount - 1 },
          none)
    else
      some (pdFAIL, { events := pq.events, semCount := pq.semCount - 1 },
        none)
  else some (pdFAIL, pq, none)

theorem sendC_eq (mutexOk : Bool) (pq : pq_handle_t) (event : pq_event_t) :
    xPriorityQueueSendC mutexOk pq event =
      some (xPriorityQueueSend mutexOk pq event) := by
  cases mutexOk
  · rfl
  · unfold xPriorityQueueSendC
    by_cases hfull : PQ_MAX_EVENT_SIZE ≤ pq.events.length
    · rw [if_pos rfl, if_pos hfull, send_full_eq pq event hfull]
    · rw [if_pos rfl, if_neg hfull, if_pos (by omega),
        heapifyUpC_eq (pq.events.length + 1 - 1) (pq.events.length + 1 - 1)
          (pq.events ++ [event]) (le_refl _) (by simp),
        send_ok_eq pq event hfull]
      rfl

theorem recv_empty_sem_eq' (mutexOk : Bool) (pq : pq_handle_t)
    (hpos : ¬ 0 < pq.semCount) :
    xPriorityQueueReceive mutexOk pq = (pdFAIL, pq, none) := by
  unfold xPriorityQueueReceive
  rw [if_neg hpos]

theorem recvC_eq (mutexOk : Bool) (pq : pq_handle_t) :
    xPriorityQueueReceiveC mutexOk pq =
      some (xPriorityQueueReceive mutexOk pq) := by
  by_cases hpos : 0 < pq.semCount
  · cases mutexOk
    · unfold xPriorityQueueReceiveC xPriorityQueueReceive
      rw [if_pos hpos, if_pos hpos]
      rfl
    · by_cases hlen : 0 < pq.events.length
      · unfold xPriorityQueueReceiveC
        rw [if_pos hpos, if_pos rfl, if_pos hlen, if_pos ⟨hlen, by omega⟩,
          heapifyDownC_eq
            ((pq.events.set 0
              (pq.events.getD (pq.events.length - 1) default)).dropLast).length
            ((pq.events.set 0
              (pq.events.getD (pq.events.length - 1) default)).dropLast)
            0 (by omega),
          recv_ok_eq pq hpos hlen]
        rfl
      · unfold xPriorityQueueReceiveC xPriorityQueueReceive
        rw [if_pos hpos, if_pos hpos, if_pos rfl, if_pos rfl, if_neg hlen,
          if_neg hlen]
  · unfold xPriorityQueueReceiveC
    rw [if_neg hpos, recv_empty_sem_eq' mutexOk pq hpos]

/-- C9: every array access performed by send, receive and the two heapify
walks stays inside the occupied prefix: the bounds-checked mirrors (whose
`none` branch fires on any out-of-range access) agree with the unchecked
embedding — unconditionally for the public operations (their own guards
establish the bounds) and for sift-down, and for sift-up whenever the
start index is occupied, which is how insertion invokes it. -/
theorem C9_accesses_in_bounds :
    (∀ (mutexOk : Bool) (pq : pq_handle_t) (event : pq_event_t),
      xPriorityQueueSendC mutexOk pq event =
        some (xPriorityQueueSend mutexOk pq event)) ∧
    (∀ (mutexOk : Bool) (pq : pq_handle_t),
      xPriorityQueueReceiveC mutexOk pq =
        some (xPriorityQueueReceive mutexOk pq)) ∧
    (∀ (l : List pq_event_t) (k : Nat), k < l.length →
      heapifyUpC l k = some (heapifyUp l k)) ∧
    (∀ (l : List pq_event_t) (k : Nat),
      heapifyDownC l k = some (heapifyDown l k)) :=
  ⟨sendC_eq, recvC_eq,
   fun l k hk => heapifyUpC_eq k k l (le_refl _) hk,
   fun l k => heapifyDownC_eq (l.length - k) l k (le_refl _)⟩

theorem C9_accesses_in_bounds_witness :
    heapifyUpC [{ priority := pq_priority_t.HIGH_PRIORITY }] 0 =
      some (heapifyUp [{ priority := pq_priority_t.HIGH_PRIORITY }] 0) :=
  C9_accesses_in_bounds.2.2.1
    [{ priority := pq_priority_t.HIGH_PRIORITY }] 0 (by decide)

/-- `_heapifyUp` with an explicit step budget; `none` means the budget ran
out before the walk stopped. -/
def heapifyUpFuel : Nat → List pq_event_t → Nat → Option (List pq_event_t)
  | 0, _, _ => none
  | fuel + 1, l, index =>
    if getP l ((index - 1) / 2) < getP l index then
      heapifyUpFuel fuel (swapL l index ((index - 1) / 2)) ((index - 1) / 2)
    else some l

/-- `_heapifyDown` with an explicit step budget. -/
def heapifyDownFuel : Nat → List pq_event_t → Nat → Option (List pq_event_t)
  | 0, _, _ => none
  | fuel + 1, l, index =>
    if largestIdx l index ≠ index then
      heapifyDownFuel fuel (swapL l index (largestIdx l index))
        (largestIdx l index)
    else some l

theorem heapifyUpFuel_eq : ∀ (fuel k : Nat) (l : List pq_event_t),
    k < fuel → heapifyUpFuel fuel l k = some (heapifyUp l k)
  | 0, k, l, hk => by omega
  | fuel + 1, k, l, hk => by
      unfold heapifyUpFuel heapifyUp
      by_cases hcond : getP l ((k - 1) / 2) < getP l k
      · rw [if_pos hcond, dif_pos hcond]
        have hk0 : 0 < k := by
          rcases Nat.eq_zero_or_pos k with h0 | h0
          · subst h0
            exact absurd hcond (lt_irrefl _)
          · exact h0
        exact heapifyUpFuel_eq fuel ((k - 1) / 2) (swapL l k ((k - 1) / 2))
          (by omega)
      · rw [if_neg hcond, dif_neg hcond]

theorem heapifyDownFuel_eq : ∀ (fuel : Nat) (l : List pq_event_t) (k : Nat),
    l.length - k < fuel → heapifyDownFuel fuel l k = some (heapifyDown l k)
  | 0, l, k, hk => by omega
  | fuel + 1, l, k, hk => by
      unfold heapifyDownFuel heapifyDown
      by_cases hne : largestIdx l k ≠ k
      · rcases largestIdx_cases l k with heq | ⟨hlt, hlen, _, _⟩
        · exact absurd heq hne
        rw [if_pos hne, dif_pos hne]
        exact heapifyDownFuel_eq fuel (swapL l k (largestIdx l k))
          (largestIdx l k) (by rw [swapL_length]; omega)
      · rw [if_neg hne, dif_neg hne]

/-- C10: both heap-repair walks terminate, with the bounds the claim gives:
sift-up started at `k` stops within `k + 1` comparisons because the parent
index strictly decreases and at the root `(0 - 1) / 2 = 0` makes the strict
self-comparison false; sift-down stops within `length + 1` steps because
the chosen child index strictly increases and is bounded by the occupied
length. -/
theorem C10_heapify_terminates :
    (∀ (l : List pq_event_t) (k : Nat),
      heapifyUpFuel (k + 1) l k = some (heapifyUp l k)) ∧
    (∀ (l : List pq_event_t) (k : Nat),
      heapifyDownFuel (l.length + 1) l k = some (heapifyDown l k)) :=
  ⟨fun l k => heapifyUpFuel_eq (k + 1) k l (by omega),
   fun l k => heapifyDownFuel_eq (l.length + 1) l k (by omega)⟩
